import Mathlib

/-!
Verification of the straight-edge scanline primitives of valora's amicola
core, as implemented in `src/amicola/src/monotonics/line_segment.rs`.
Every `f32` of the source is modelled as a real number (exact arithmetic),
and fallible operations return `Except` / `Option` as the source returns
`Result` / `Option`.  The helper types `V2`, `Bounds`, `Intersection` and
the `ext` sorting helpers live outside the repository snapshot; they are
modelled from the specification and marked as such.
-/

noncomputable section

namespace Amicola

/-- Modelled from the spec: `V2` is a plain 2D point/vector value with
real ("f64-equivalent") coordinates; its source is not in the snapshot. -/
@[ext]
structure V2 where
  x : ℝ
  y : ℝ

/-- Modelled from the spec: componentwise vector addition. -/
instance : Add V2 := ⟨fun a b => ⟨a.x + b.x, a.y + b.y⟩⟩

/-- Modelled from the spec: componentwise vector subtraction. -/
instance : Sub V2 := ⟨fun a b => ⟨a.x - b.x, a.y - b.y⟩⟩

/-- Modelled from the spec: multiplication of a vector by a scalar. -/
instance : HMul V2 ℝ V2 := ⟨fun a c => ⟨a.x * c, a.y * c⟩⟩

/-- Modelled from the spec: division of a vector by a scalar. -/
instance : HDiv V2 ℝ V2 := ⟨fun a c => ⟨a.x / c, a.y / c⟩⟩

@[simp]
theorem V2.add_x (a b : V2) : (a + b).x = a.x + b.x := rfl

@[simp]
theorem V2.add_y (a b : V2) : (a + b).y = a.y + b.y := rfl

@[simp]
theorem V2.sub_x (a b : V2) : (a - b).x = a.x - b.x := rfl

@[simp]
theorem V2.sub_y (a b : V2) : (a - b).y = a.y - b.y := rfl

@[simp]
theorem V2.mul_x (a : V2) (c : ℝ) : (a * c).x = a.x * c := rfl

@[simp]
theorem V2.mul_y (a : V2) (c : ℝ) : (a * c).y = a.y * c := rfl

@[simp]
theorem V2.div_x (a : V2) (c : ℝ) : (a / c).x = a.x / c := rfl

@[simp]
theorem V2.div_y (a : V2) (c : ℝ) : (a / c).y = a.y / c := rfl

/-- Modelled from the spec: the Euclidean norm of a `V2`. -/
def V2.norm (v : V2) : ℝ := Real.sqrt (v.x ^ 2 + v.y ^ 2)

/-- Modelled from the spec: normalization divides a vector by its Euclidean
norm (the source leaves the zero vector to the caller; the real-number model
sends it to the zero vector, since division by zero is zero in `ℝ`). -/
def V2.normalize (v : V2) : V2 := v / v.norm

namespace ext

/-- Modelled from the spec: `ext::min_max` returns the two scalars in
ascending order. -/
def min_max (a b : ℝ) : ℝ × ℝ := if a ≤ b then (a, b) else (b, a)

/-- Modelled from the spec: `ext::min_max_by` returns the two values sorted
ascending by a real-valued key (ties keep the argument order). -/
def min_max_by (a b : V2) (f : V2 → ℝ) : V2 × V2 :=
  if f a ≤ f b then (a, b) else (b, a)

end ext

/-- The `Slope` classification of a line segment
(`line_segment.rs`, lines 52–57). -/
inductive Slope where
  | Vertical : Slope
  | Defined : (m : ℝ) → (b : ℝ) → Slope
  | Horizontal : Slope

/-- Modelled from the spec: axis-aligned bounding box of a curve, fields
`left`, `right`, `top`, `bottom`. -/
@[ext]
structure Bounds where
  left : ℝ
  right : ℝ
  top : ℝ
  bottom : ℝ

/-- Modelled from the spec: the result of probing a curve, carrying the
crossing coordinate on the other `axis` and the parametric position `t`. -/
@[ext]
structure Intersection where
  axis : ℝ
  t : ℝ

/-- `LineSegment` (`line_segment.rs`, lines 8–16). -/
structure LineSegment where
  m : Slope
  bounds : Bounds
  start : V2
  dir : V2
  length : ℝ
  normal : V2

/-- `LineSegment::new` (`line_segment.rs`, lines 60–98). -/
def LineSegment.new (start endp : V2) : LineSegment :=
  let lr := ext.min_max_by start endp fun p => p.x
  let left := lr.1
  let right := lr.2
  let bt := ext.min_max start.y endp.y
  let bottom := bt.1
  let top := bt.2
  let dx := right.x - left.x
  let dy := right.y - left.y
  let m0 := dy / dx
  let m :=
    if dx = 0 then Slope.Vertical
    else if dy = 0 then Slope.Horizontal
    else Slope.Defined (dy / dx) (left.y - m0 * left.x)
  let dir := (endp - start).normalize
  let dir_theta := dir * Real.pi / (2 : ℝ)
  let normal :=
    (V2.mk (Real.cos dir_theta.x - Real.sin dir_theta.y)
      (Real.sin dir_theta.x - Real.cos dir_theta.y)).normalize
  { m := m
    bounds := { left := left.x, right := right.x, top := top, bottom := bottom }
    start := start
    dir := dir
    length := (start - endp).norm
    normal := normal }

/-- `LineSegment::translate` (`line_segment.rs`, lines 100–103). -/
def LineSegment.translate (self : LineSegment) (dir : V2) (amount : ℝ) :
    LineSegment :=
  let new_start := self.start + dir * amount
  LineSegment.new new_start (new_start + self.dir * self.length)

/-- `<LineSegment as Curve>::sample_y` (`line_segment.rs`, lines 109–129). -/
def LineSegment.sample_y (self : LineSegment) (y : ℝ) : Option Intersection :=
  if self.bounds.bottom ≤ y ∧ y ≤ self.bounds.top then
    match self.m with
    | Slope.Vertical =>
        some ⟨self.bounds.right,
          (y - self.bounds.bottom) / (self.bounds.top - self.bounds.bottom)⟩
    | Slope.Horizontal => none
    | Slope.Defined m b =>
        let x := (y - b) / m
        let p := V2.mk x y
        some ⟨x, (p - self.start).norm / self.length⟩
  else none

/-- `<LineSegment as Curve>::sample_x` (`line_segment.rs`, lines 131–151). -/
def LineSegment.sample_x (self : LineSegment) (x : ℝ) : Option Intersection :=
  if self.bounds.left ≤ x ∧ x ≤ self.bounds.right then
    match self.m with
    | Slope.Vertical => none
    | Slope.Horizontal =>
        some ⟨self.bounds.bottom,
          (x - self.bounds.left) / (self.bounds.right - self.bounds.left)⟩
    | Slope.Defined m b =>
        let y := m * x + b
        let p := V2.mk x y
        some ⟨y, (p - self.start).norm / self.length⟩
  else none

/-- `<LineSegment as Curve>::sample_t` (`line_segment.rs`, lines 153–159). -/
def LineSegment.sample_t (self : LineSegment) (t : ℝ) : Option V2 :=
  if t < 0 ∨ 1 < t then none
  else some (self.start + self.dir * t * self.length)

/-- `<LineSegment as Curve>::bookends` (`line_segment.rs`, line 163). -/
def LineSegment.bookends (self : LineSegment) : V2 × V2 :=
  (self.start, self.start + self.dir * self.length)

/-- `RasterableLineSegment`, a `LineSegment` guaranteed non-horizontal
(`line_segment.rs`, line 19). -/
structure RasterableLineSegment where
  toLineSegment : LineSegment

/-- The `HorizontalNotRasterable` error value (`line_segment.rs`, line 28). -/
inductive HorizontalNotRasterable where
  | mk : HorizontalNotRasterable

/-- `TryFrom<LineSegment> for RasterableLineSegment`
(`line_segment.rs`, lines 30–38). -/
def RasterableLineSegment.try_from (src : LineSegment) :
    Except HorizontalNotRasterable RasterableLineSegment :=
  match src.m with
  | Slope.Horizontal => Except.error HorizontalNotRasterable.mk
  | _ => Except.ok ⟨src⟩

/-- `RasterableLineSegment::new` (`line_segment.rs`, lines 22–24). -/
def RasterableLineSegment.new (start endp : V2) :
    Option RasterableLineSegment :=
  (RasterableLineSegment.try_from (LineSegment.new start endp)).toOption

/-! ### Basic facts about the modelled vector operations -/

theorem V2.norm_nonneg (v : V2) : 0 ≤ v.norm := Real.sqrt_nonneg _

theorem V2.norm_eq_zero_iff (v : V2) : v.norm = 0 ↔ v = ⟨0, 0⟩ := by
  unfold V2.norm
  rw [Real.sqrt_eq_zero (by positivity)]
  constructor
  · intro h
    have hx : v.x = 0 := by nlinarith [sq_nonneg v.x, sq_nonneg v.y]
    have hy : v.y = 0 := by nlinarith [sq_nonneg v.x, sq_nonneg v.y]
    ext <;> simp [hx, hy]
  · rintro rfl
    norm_num

theorem V2.norm_pos (v : V2) (h : v ≠ ⟨0, 0⟩) : 0 < v.norm :=
  lt_of_le_of_ne v.norm_nonneg fun h' => h (v.norm_eq_zero_iff.mp h'.symm)

theorem V2.norm_mul (v : V2) (c : ℝ) : (v * c).norm = v.norm * |c| := by
  unfold V2.norm
  rw [V2.mul_x, V2.mul_y, mul_pow, mul_pow, ← add_mul,
    Real.sqrt_mul (by positivity), Real.sqrt_sq_eq_abs]

theorem V2.norm_div (v : V2) (c : ℝ) : (v / c).norm = v.norm / |c| := by
  unfold V2.norm
  rw [V2.div_x, V2.div_y, div_pow, div_pow, div_add_div_same,
    Real.sqrt_div (by positivity), Real.sqrt_sq_eq_abs]

theorem V2.norm_sub_comm (a b : V2) : (a - b).norm = (b - a).norm := by
  unfold V2.norm
  rw [V2.sub_x, V2.sub_y, V2.sub_x, V2.sub_y]
  congr 1
  ring

theorem V2.norm_normalize (v : V2) (h : v.norm ≠ 0) : v.normalize.norm = 1 := by
  unfold V2.normalize
  rw [V2.norm_div, abs_of_nonneg v.norm_nonneg, div_self h]

/-- An exact-arithmetic helper: `a / b ∈ [0, 1]` when `0 ≤ a ≤ b` (including
the degenerate `b = 0` case, where the model's division by zero yields 0). -/
theorem div_unit_interval {a b : ℝ} (h1 : 0 ≤ a) (h2 : a ≤ b) :
    0 ≤ a / b ∧ a / b ≤ 1 := by
  rcases eq_or_lt_of_le (h1.trans h2) with hb | hb
  · have ha : a = 0 := le_antisymm (hb ▸ h2) h1
    simp [ha]
  · exact ⟨div_nonneg h1 hb.le, (div_le_one hb).mpr h2⟩

/-! ### Characterization of the fields produced by `LineSegment::new` -/

theorem LineSegment.new_start (s e : V2) : (LineSegment.new s e).start = s := rfl

theorem LineSegment.new_dir (s e : V2) :
    (LineSegment.new s e).dir = (e - s).normalize := rfl

theorem LineSegment.new_length (s e : V2) :
    (LineSegment.new s e).length = (s - e).norm := rfl

theorem LineSegment.new_normal (s e : V2) :
    (LineSegment.new s e).normal =
      (V2.mk
        (Real.cos ((e - s).normalize * Real.pi / (2 : ℝ)).x -
          Real.sin ((e - s).normalize * Real.pi / (2 : ℝ)).y)
        (Real.sin ((e - s).normalize * Real.pi / (2 : ℝ)).x -
          Real.cos ((e - s).normalize * Real.pi / (2 : ℝ)).y)).normalize := rfl

theorem LineSegment.new_bounds (s e : V2) :
    (LineSegment.new s e).bounds =
      ⟨min s.x e.x, max s.x e.x, max s.y e.y, min s.y e.y⟩ := by
  unfold LineSegment.new ext.min_max_by ext.min_max
  rcases le_or_lt s.x e.x with h | h <;> rcases le_or_lt s.y e.y with h' | h'
  · rw [min_eq_left h, max_eq_right h, max_eq_right h', min_eq_left h']
    simp [h, h']
  · rw [min_eq_left h, max_eq_right h, max_eq_left h'.le, min_eq_right h'.le]
    simp [h, not_le.mpr h']
  · rw [min_eq_right h.le, max_eq_left h.le, max_eq_right h', min_eq_left h']
    simp [not_le.mpr h, h']
  · rw [min_eq_right h.le, max_eq_left h.le, max_eq_left h'.le,
      min_eq_right h'.le]
    simp [not_le.mpr h, not_le.mpr h']

theorem LineSegment.new_m_vertical (s e : V2) (h : s.x = e.x) :
    (LineSegment.new s e).m = Slope.Vertical := by
  unfold LineSegment.new ext.min_max_by ext.min_max
  simp [h]

theorem LineSegment.new_m_horizontal (s e : V2) (hx : s.x ≠ e.x)
    (hy : s.y = e.y) : (LineSegment.new s e).m = Slope.Horizontal := by
  unfold LineSegment.new ext.min_max_by ext.min_max
  rcases le_or_lt s.x e.x with h | h
  · simp [h, hy, sub_eq_zero, Ne.symm hx]
  · simp [not_le.mpr h, hy, sub_eq_zero, hx]

theorem LineSegment.new_m_defined (s e : V2) (hx : s.x ≠ e.x)
    (hy : s.y ≠ e.y) :
    (LineSegment.new s e).m =
      Slope.Defined ((e.y - s.y) / (e.x - s.x))
        (s.y - (e.y - s.y) / (e.x - s.x) * s.x) := by
  have hxe : e.x - s.x ≠ 0 := sub_ne_zero.mpr (Ne.symm hx)
  have hxs : s.x - e.x ≠ 0 := sub_ne_zero.mpr hx
  have hm : (s.y - e.y) / (s.x - e.x) = (e.y - s.y) / (e.x - s.x) := by
    rw [div_eq_div_iff hxs hxe]
    ring
  unfold LineSegment.new ext.min_max_by ext.min_max
  rcases le_or_lt s.x e.x with h | h
  · simp [h, hxe, sub_eq_zero, Ne.symm hy]
  · simp only [if_neg (not_le.mpr h)]
    rw [if_neg hxs, if_neg (fun h' : s.y - e.y = 0 => hy (sub_eq_zero.mp h')),
      hm]
    congr 1
    field_simp
    ring

/-! ### Branch lemmas for the sampling operations -/

theorem LineSegment.sample_y_of_not_mem (seg : LineSegment) (y : ℝ)
    (h : ¬(seg.bounds.bottom ≤ y ∧ y ≤ seg.bounds.top)) :
    seg.sample_y y = none := by
  unfold LineSegment.sample_y
  exact if_neg h

theorem LineSegment.sample_y_vertical (seg : LineSegment) (y : ℝ)
    (hm : seg.m = Slope.Vertical) (h1 : seg.bounds.bottom ≤ y)
    (h2 : y ≤ seg.bounds.top) :
    seg.sample_y y = some ⟨seg.bounds.right,
      (y - seg.bounds.bottom) / (seg.bounds.top - seg.bounds.bottom)⟩ := by
  unfold LineSegment.sample_y
  rw [if_pos ⟨h1, h2⟩, hm]

theorem LineSegment.sample_y_horizontal (seg : LineSegment) (y : ℝ)
    (hm : seg.m = Slope.Horizontal) : seg.sample_y y = none := by
  unfold LineSegment.sample_y
  split
  · rw [hm]
  · rfl

theorem LineSegment.sample_y_defined (seg : LineSegment) (y m b : ℝ)
    (hm : seg.m = Slope.Defined m b) (h1 : seg.bounds.bottom ≤ y)
    (h2 : y ≤ seg.bounds.top) :
    seg.sample_y y = some ⟨(y - b) / m,
      (V2.mk ((y - b) / m) y - seg.start).norm / seg.length⟩ := by
  unfold LineSegment.sample_y
  rw [if_pos ⟨h1, h2⟩, hm]

theorem LineSegment.sample_x_of_not_mem (seg : LineSegment) (x : ℝ)
    (h : ¬(seg.bounds.left ≤ x ∧ x ≤ seg.bounds.right)) :
    seg.sample_x x = none := by
  unfold LineSegment.sample_x
  exact if_neg h

theorem LineSegment.sample_x_vertical (seg : LineSegment) (x : ℝ)
    (hm : seg.m = Slope.Vertical) : seg.sample_x x = none := by
  unfold LineSegment.sample_x
  split
  · rw [hm]
  · rfl

theorem LineSegment.sample_x_horizontal (seg : LineSegment) (x : ℝ)
    (hm : seg.m = Slope.Horizontal) (h1 : seg.bounds.left ≤ x)
    (h2 : x ≤ seg.bounds.right) :
    seg.sample_x x = some ⟨seg.bounds.bottom,
      (x - seg.bounds.left) / (seg.bounds.right - seg.bounds.left)⟩ := by
  unfold LineSegment.sample_x
  rw [if_pos ⟨h1, h2⟩, hm]

theorem LineSegment.sample_x_defined (seg : LineSegment) (x m b : ℝ)
    (hm : seg.m = Slope.Defined m b) (h1 : seg.bounds.left ≤ x)
    (h2 : x ≤ seg.bounds.right) :
    seg.sample_x x = some ⟨m * x + b,
      (V2.mk x (m * x + b) - seg.start).norm / seg.length⟩ := by
  unfold LineSegment.sample_x
  rw [if_pos ⟨h1, h2⟩, hm]

/-- Inversion: a `Defined` classification can only arise from endpoints with
distinct x and distinct y, and determines `m` and `b`. -/
theorem LineSegment.new_defined_inv (s e : V2) (m b : ℝ)
    (h : (LineSegment.new s e).m = Slope.Defined m b) :
    s.x ≠ e.x ∧ s.y ≠ e.y ∧ m = (e.y - s.y) / (e.x - s.x) ∧
      b = s.y - m * s.x := by
  by_cases hx : s.x = e.x
  · rw [LineSegment.new_m_vertical s e hx] at h
    exact absurd h (by simp)
  by_cases hy : s.y = e.y
  · rw [LineSegment.new_m_horizontal s e hx hy] at h
    exact absurd h (by simp)
  rw [LineSegment.new_m_defined s e hx hy] at h
  injection h with h1 h2
  refine ⟨hx, hy, h1.symm, ?_⟩
  rw [← h2, h1]

/-- A nonzero chord has nonzero Euclidean length. -/
theorem norm_sub_ne_zero (s e : V2) (h : s.x ≠ e.x ∨ s.y ≠ e.y) :
    (e - s).norm ≠ 0 := by
  intro h0
  have h1 := (e - s).norm_eq_zero_iff.mp h0
  have hx : e.x - s.x = 0 := congrArg V2.x h1
  have hy : e.y - s.y = 0 := congrArg V2.y h1
  rcases h with h | h
  · exact h (sub_eq_zero.mp hx).symm
  · exact h (sub_eq_zero.mp hy).symm

/-- The ratio `(y - p) / (q - p)` lies in `[0, 1]` whenever `y` lies between
`p` and `q`. -/
theorem ratio_unit_of_between {p q y : ℝ} (hpq : p ≠ q) (h1 : min p q ≤ y)
    (h2 : y ≤ max p q) :
    0 ≤ (y - p) / (q - p) ∧ (y - p) / (q - p) ≤ 1 := by
  rcases lt_or_gt_of_ne hpq with h | h
  · rw [min_eq_left h.le] at h1
    rw [max_eq_right h.le] at h2
    exact div_unit_interval (by linarith) (by linarith)
  · rw [min_eq_right h.le] at h1
    rw [max_eq_left h.le] at h2
    have hq : (y - p) / (q - p) = (p - y) / (p - q) := by
      rw [div_eq_div_iff (sub_ne_zero.mpr (Ne.symm hpq)) (sub_ne_zero.mpr hpq)]
      ring
    rw [hq]
    exact div_unit_interval (by linarith) (by linarith)

/-- The point `sample_y` computes on a `Defined` chord is the convex
combination of the endpoints at parameter `(y - s.y) / (e.y - s.y)`. -/
theorem chord_point_y (s e : V2) (m b y : ℝ) (hx : s.x ≠ e.x)
    (hy : s.y ≠ e.y) (hmv : m = (e.y - s.y) / (e.x - s.x))
    (hbv : b = s.y - m * s.x) :
    V2.mk ((y - b) / m) y - s = (e - s) * ((y - s.y) / (e.y - s.y)) := by
  have hex : e.x - s.x ≠ 0 := sub_ne_zero.mpr (Ne.symm hx)
  have hey : e.y - s.y ≠ 0 := sub_ne_zero.mpr (Ne.symm hy)
  ext
  · show (y - b) / m - s.x = (e.x - s.x) * ((y - s.y) / (e.y - s.y))
    rw [hbv, hmv]
    field_simp
    ring
  · show y - s.y = (e.y - s.y) * ((y - s.y) / (e.y - s.y))
    rw [mul_comm, div_mul_cancel₀ _ hey]

/-- The point `sample_x` computes on a `Defined` chord is the convex
combination of the endpoints at parameter `(x - s.x) / (e.x - s.x)`. -/
theorem chord_point_x (s e : V2) (m b x : ℝ) (hx : s.x ≠ e.x)
    (hy : s.y ≠ e.y) (hmv : m = (e.y - s.y) / (e.x - s.x))
    (hbv : b = s.y - m * s.x) :
    V2.mk x (m * x + b) - s = (e - s) * ((x - s.x) / (e.x - s.x)) := by
  have hex : e.x - s.x ≠ 0 := sub_ne_zero.mpr (Ne.symm hx)
  ext
  · show x - s.x = (e.x - s.x) * ((x - s.x) / (e.x - s.x))
    rw [mul_comm, div_mul_cancel₀ _ hex]
  · show m * x + b - s.y = (e.y - s.y) * ((x - s.x) / (e.x - s.x))
    rw [hbv, hmv]
    field_simp
    ring

/-- Scaling a chord by a nonnegative parameter and dividing by the chord
length recovers the parameter. -/
theorem norm_ratio (s e : V2) (u : ℝ) (hu : 0 ≤ u)
    (hne : (e - s).norm ≠ 0) :
    ((e - s) * u).norm / (s - e).norm = u := by
  rw [V2.norm_mul, V2.norm_sub_comm s e, mul_div_cancel_left₀ _ hne,
    abs_of_nonneg hu]

/-- On a `Defined` segment, the `t` value `sample_y` computes lies in
`[0, 1]` for every in-bounds probe height. -/
theorem defined_y_t_unit (s e : V2) (m b y : ℝ)
    (hm : (LineSegment.new s e).m = Slope.Defined m b)
    (h1 : (LineSegment.new s e).bounds.bottom ≤ y)
    (h2 : y ≤ (LineSegment.new s e).bounds.top) :
    0 ≤ (V2.mk ((y - b) / m) y - s).norm / (s - e).norm ∧
      (V2.mk ((y - b) / m) y - s).norm / (s - e).norm ≤ 1 := by
  obtain ⟨hx, hy, hmv, hbv⟩ := LineSegment.new_defined_inv s e m b hm
  rw [LineSegment.new_bounds] at h1 h2
  have h1' : min s.y e.y ≤ y := h1
  have h2' : y ≤ max s.y e.y := h2
  have hu := ratio_unit_of_between hy h1' h2'
  have hch := chord_point_y s e m b y hx hy hmv hbv
  rw [hch, norm_ratio s e _ hu.1 (norm_sub_ne_zero s e (Or.inl hx))]
  exact hu

/-- On a `Defined` segment, the `t` value `sample_x` computes lies in
`[0, 1]` for every in-bounds probe abscissa. -/
theorem defined_x_t_unit (s e : V2) (m b x : ℝ)
    (hm : (LineSegment.new s e).m = Slope.Defined m b)
    (h1 : (LineSegment.new s e).bounds.left ≤ x)
    (h2 : x ≤ (LineSegment.new s e).bounds.right) :
    0 ≤ (V2.mk x (m * x + b) - s).norm / (s - e).norm ∧
      (V2.mk x (m * x + b) - s).norm / (s - e).norm ≤ 1 := by
  obtain ⟨hx, hy, hmv, hbv⟩ := LineSegment.new_defined_inv s e m b hm
  rw [LineSegment.new_bounds] at h1 h2
  have h1' : min s.x e.x ≤ x := h1
  have h2' : x ≤ max s.x e.x := h2
  have hu := ratio_unit_of_between hx h1' h2'
  have hch := chord_point_x s e m b x hx hy hmv hbv
  rw [hch, norm_ratio s e _ hu.1 (norm_sub_ne_zero s e (Or.inl hx))]
  exact hu

/-! ### The claims -/

/-- C1: the fallible conversion from `LineSegment` to `RasterableLineSegment`
fails with `HorizontalNotRasterable` exactly when the segment's slope
classifies as `Horizontal` (which is what endpoints with equal y and distinct
x produce), succeeds for every `Vertical` or `Defined` segment, and for every
horizontal segment `sample_y` returns nothing at every probe coordinate. -/
theorem claim1_horizontal_not_rasterable :
    (∀ seg : LineSegment,
      RasterableLineSegment.try_from seg =
        Except.error HorizontalNotRasterable.mk ↔ seg.m = Slope.Horizontal) ∧
    (∀ seg : LineSegment, seg.m ≠ Slope.Horizontal →
      RasterableLineSegment.try_from seg = Except.ok ⟨seg⟩) ∧
    (∀ s e : V2, s.y = e.y → s.x ≠ e.x →
      (LineSegment.new s e).m = Slope.Horizontal ∧
      ∀ y : ℝ, (LineSegment.new s e).sample_y y = none) := by
  refine ⟨fun seg => ?_, fun seg h => ?_, fun s e hy hx => ?_⟩
  · unfold RasterableLineSegment.try_from
    cases hm : seg.m <;> simp [hm]
  · unfold RasterableLineSegment.try_from
    cases hm : seg.m
    · rfl
    · rfl
    · exact absurd hm h
  · have hm := LineSegment.new_m_horizontal s e hx hy
    exact ⟨hm, fun y => (LineSegment.new s e).sample_y_horizontal y hm⟩

/-- C2: for every line segment, `sample_t 0` returns the first element of
`bookends`, `sample_t 1` returns the second element, and `sample_t t`
returns nothing for `t < 0` or `t > 1`. -/
theorem claim2_sample_t_bookends (seg : LineSegment) :
    seg.sample_t 0 = some seg.bookends.1 ∧
    seg.sample_t 1 = some seg.bookends.2 ∧
    ∀ t : ℝ, t < 0 ∨ 1 < t → seg.sample_t t = none := by
  refine ⟨?_, ?_, fun t ht => ?_⟩
  · unfold LineSegment.sample_t LineSegment.bookends
    rw [if_neg (by norm_num)]
    congr 1
    ext <;> simp
  · unfold LineSegment.sample_t LineSegment.bookends
    rw [if_neg (by norm_num)]
    congr 1
    ext <;> simp
  · unfold LineSegment.sample_t
    exact if_pos ht

/-- C10: the degenerate zero-length segment built from a twice-repeated
point classifies its slope as `Vertical` (the `dx == 0` check precedes the
`dy == 0` check), so the conversion to `RasterableLineSegment` succeeds on
it rather than rejecting it. -/
theorem claim10_degenerate_vertical (p : V2) :
    (LineSegment.new p p).m = Slope.Vertical ∧
    RasterableLineSegment.try_from (LineSegment.new p p) =
      Except.ok ⟨LineSegment.new p p⟩ := by
  have hm := LineSegment.new_m_vertical p p rfl
  refine ⟨hm, ?_⟩
  unfold RasterableLineSegment.try_from
  rw [hm]

/-- The y-intercept computed from either endpoint of a non-vertical chord is
the same, since both endpoints lie on the line `y = m x + b`. -/
theorem intercept_symm (s e : V2) (hx : s.x ≠ e.x) :
    e.y - (e.y - s.y) / (e.x - s.x) * e.x =
      s.y - (e.y - s.y) / (e.x - s.x) * s.x := by
  have h : e.x - s.x ≠ 0 := sub_ne_zero.mpr (Ne.symm hx)
  field_simp
  ring

/-- C4 counterexample: the horizontal segment from (0,0) to (1,0) has
`bounds.bottom = 0`, yet `sample_y` at that very coordinate returns
nothing, refuting boundary inclusivity for every constructed segment. -/
theorem claim4_counterexample :
    (LineSegment.new (V2.mk 0 0) (V2.mk 1 0)).sample_y
      (LineSegment.new (V2.mk 0 0) (V2.mk 1 0)).bounds.bottom = none := by
  apply LineSegment.sample_y_horizontal
  exact LineSegment.new_m_horizontal _ _ (by norm_num) rfl

/-- C4 (amended): `sample_y` returns nothing strictly outside
`[bounds.bottom, bounds.top]` for every constructed segment, and for every
constructed segment whose slope is not `Horizontal` both boundary probes
`sample_y bounds.bottom` and `sample_y bounds.top` return a result. -/
theorem claim4_boundary_inclusivity :
    (∀ s e : V2, ∀ y : ℝ,
      ((LineSegment.new s e).bounds.top < y ∨
        y < (LineSegment.new s e).bounds.bottom) →
      (LineSegment.new s e).sample_y y = none) ∧
    (∀ s e : V2, (LineSegment.new s e).m ≠ Slope.Horizontal →
      (∃ i : Intersection, (LineSegment.new s e).sample_y
        (LineSegment.new s e).bounds.bottom = some i) ∧
      (∃ i : Intersection, (LineSegment.new s e).sample_y
        (LineSegment.new s e).bounds.top = some i)) := by
  refine ⟨fun s e y hy => ?_, fun s e hm => ?_⟩
  · apply LineSegment.sample_y_of_not_mem
    rcases hy with h | h
    · exact fun hc => absurd hc.2 (not_le.mpr h)
    · exact fun hc => absurd hc.1 (not_le.mpr h)
  · have hbt : (LineSegment.new s e).bounds.bottom ≤
        (LineSegment.new s e).bounds.top := by
      rw [LineSegment.new_bounds]
      exact min_le_max
    cases hm' : (LineSegment.new s e).m with
    | Vertical =>
        exact ⟨⟨_, LineSegment.sample_y_vertical _ _ hm' le_rfl hbt⟩,
          ⟨_, LineSegment.sample_y_vertical _ _ hm' hbt le_rfl⟩⟩
    | Defined m b =>
        exact ⟨⟨_, LineSegment.sample_y_defined _ _ m b hm' le_rfl hbt⟩,
          ⟨_, LineSegment.sample_y_defined _ _ m b hm' hbt le_rfl⟩⟩
    | Horizontal => exact absurd hm' hm

/-- C6: endpoints with distinct x and distinct y produce slope
`Defined {m, b}` with `m = (y2-y1)/(x2-x1)` and `b = left.y - m*left.x`
for the endpoint `left` of smaller x, and swapping start and end yields the
same `m`, `b` and `Bounds`. -/
theorem claim6_defined_slope (s e : V2) (hx : s.x ≠ e.x) (hy : s.y ≠ e.y) :
    (LineSegment.new s e).m =
      Slope.Defined ((e.y - s.y) / (e.x - s.x))
        ((if s.x < e.x then s else e).y -
          (e.y - s.y) / (e.x - s.x) * (if s.x < e.x then s else e).x) ∧
    (LineSegment.new e s).m = (LineSegment.new s e).m ∧
    (LineSegment.new e s).bounds = (LineSegment.new s e).bounds := by
  have hm := LineSegment.new_m_defined s e hx hy
  have hm' := LineSegment.new_m_defined e s (Ne.symm hx) (Ne.symm hy)
  have hdiv : (s.y - e.y) / (s.x - e.x) = (e.y - s.y) / (e.x - s.x) := by
    rw [div_eq_div_iff (sub_ne_zero.mpr hx) (sub_ne_zero.mpr (Ne.symm hx))]
    ring
  refine ⟨?_, ?_, ?_⟩
  · rw [hm]
    rcases lt_or_gt_of_ne hx with h | h
    · rw [if_pos h]
    · rw [if_neg (not_lt.mpr h.le)]
      rw [intercept_symm s e hx]
  · rw [hm, hm', hdiv, intercept_symm s e hx]
  · rw [LineSegment.new_bounds, LineSegment.new_bounds,
      min_comm e.x s.x, max_comm e.x s.x, min_comm e.y s.y, max_comm e.y s.y]

/-- Witness for C6: the segment from (3,1) to (4,2) of the reference tests. -/
theorem claim6_witness :
    (LineSegment.new (V2.mk 3 1) (V2.mk 4 2)).m =
      Slope.Defined
        (((V2.mk 4 2).y - (V2.mk 3 1).y) / ((V2.mk 4 2).x - (V2.mk 3 1).x))
        ((if (V2.mk 3 1).x < (V2.mk 4 2).x then V2.mk 3 1 else V2.mk 4 2).y -
          ((V2.mk 4 2).y - (V2.mk 3 1).y) / ((V2.mk 4 2).x - (V2.mk 3 1).x) *
          (if (V2.mk 3 1).x < (V2.mk 4 2).x then V2.mk 3 1 else V2.mk 4 2).x) ∧
    (LineSegment.new (V2.mk 4 2) (V2.mk 3 1)).m =
      (LineSegment.new (V2.mk 3 1) (V2.mk 4 2)).m ∧
    (LineSegment.new (V2.mk 4 2) (V2.mk 3 1)).bounds =
      (LineSegment.new (V2.mk 3 1) (V2.mk 4 2)).bounds :=
  claim6_defined_slope (V2.mk 3 1) (V2.mk 4 2) (by norm_num) (by norm_num)

/-- C7: a vertical segment (equal x, distinct y) classifies as `Vertical`,
`sample_x` returns nothing at every probe, and `sample_y` at every height
between the endpoints returns an intersection whose axis is the shared x. -/
theorem claim7_vertical_segment (s e : V2) (hx : s.x = e.x) (hy : s.y ≠ e.y) :
    (LineSegment.new s e).m = Slope.Vertical ∧
    (∀ x : ℝ, (LineSegment.new s e).sample_x x = none) ∧
    (∀ y : ℝ, min s.y e.y ≤ y → y ≤ max s.y e.y →
      ∃ i : Intersection, (LineSegment.new s e).sample_y y = some i ∧
        i.axis = s.x) := by
  have hm := LineSegment.new_m_vertical s e hx
  have hb := LineSegment.new_bounds s e
  refine ⟨hm, fun x => (LineSegment.new s e).sample_x_vertical x hm,
    fun y h1 h2 => ?_⟩
  have h1' : (LineSegment.new s e).bounds.bottom ≤ y := by rw [hb]; exact h1
  have h2' : y ≤ (LineSegment.new s e).bounds.top := by rw [hb]; exact h2
  refine ⟨_, LineSegment.sample_y_vertical _ y hm h1' h2', ?_⟩
  show (LineSegment.new s e).bounds.right = s.x
  rw [hb]
  show max s.x e.x = s.x
  rw [← hx]
  exact max_self s.x

/-- Witness for C7 at the vertical segment from (0,0) to (0,100) of the
reference tests. -/
theorem claim7_witness :
    (LineSegment.new (V2.mk 0 0) (V2.mk 0 100)).m = Slope.Vertical ∧
    (∀ x : ℝ, (LineSegment.new (V2.mk 0 0) (V2.mk 0 100)).sample_x x = none) ∧
    (∀ y : ℝ, min (V2.mk 0 0).y (V2.mk 0 100).y ≤ y →
      y ≤ max (V2.mk 0 0).y (V2.mk 0 100).y →
      ∃ i : Intersection,
        (LineSegment.new (V2.mk 0 0) (V2.mk 0 100)).sample_y y = some i ∧
        i.axis = (V2.mk 0 0).x) :=
  claim7_vertical_segment (V2.mk 0 0) (V2.mk 0 100) rfl (by norm_num)

/-- C3: on a segment classified `Defined {m, b}`, every in-bounds probe
height `y` yields an intersection whose axis coordinate `x` satisfies
`y = m*x + b` (exactly, in the exact-arithmetic model). -/
theorem claim3_sample_y_on_line (s e : V2) (m b y : ℝ)
    (hm : (LineSegment.new s e).m = Slope.Defined m b)
    (h1 : (LineSegment.new s e).bounds.bottom ≤ y)
    (h2 : y ≤ (LineSegment.new s e).bounds.top) :
    ∃ i : Intersection, (LineSegment.new s e).sample_y y = some i ∧
      m * i.axis + b = y := by
  obtain ⟨hx, hy, hmv, _⟩ := LineSegment.new_defined_inv s e m b hm
  have hm0 : m ≠ 0 := by
    rw [hmv]
    exact div_ne_zero (sub_ne_zero.mpr (Ne.symm hy))
      (sub_ne_zero.mpr (Ne.symm hx))
  refine ⟨_, LineSegment.sample_y_defined _ y m b hm h1 h2, ?_⟩
  show m * ((y - b) / m) + b = y
  rw [mul_comm m ((y - b) / m), div_mul_cancel₀ _ hm0, sub_add_cancel]

/-- Witness for C3 at the segment from (0,0) to (1,1) probed at height 0. -/
theorem claim3_witness :
    ∃ i : Intersection,
      (LineSegment.new (V2.mk 0 0) (V2.mk 1 1)).sample_y 0 = some i ∧
      1 * i.axis + 0 = 0 := by
  have hm : (LineSegment.new (V2.mk 0 0) (V2.mk 1 1)).m =
      Slope.Defined 1 0 := by
    rw [LineSegment.new_m_defined _ _ (by norm_num) (by norm_num)]
    norm_num
  have hb := LineSegment.new_bounds (V2.mk 0 0) (V2.mk 1 1)
  exact claim3_sample_y_on_line (V2.mk 0 0) (V2.mk 1 1) 1 0 0 hm
    (by rw [hb]; norm_num) (by rw [hb]; norm_num)

/-- C5: every intersection returned by `sample_y` or `sample_x` on a
constructed segment carries a parametric position `t` with `0 ≤ t ≤ 1`. -/
theorem claim5_intersection_t_unit :
    ∀ (s e : V2) (c : ℝ) (i : Intersection),
      ((LineSegment.new s e).sample_y c = some i → 0 ≤ i.t ∧ i.t ≤ 1) ∧
      ((LineSegment.new s e).sample_x c = some i → 0 ≤ i.t ∧ i.t ≤ 1) := by
  intro s e c i
  constructor
  · intro h
    by_cases hg : (LineSegment.new s e).bounds.bottom ≤ c ∧
        c ≤ (LineSegment.new s e).bounds.top
    swap
    · rw [LineSegment.sample_y_of_not_mem _ _ hg] at h
      exact absurd h (by simp)
    by_cases hx : s.x = e.x
    · rw [LineSegment.sample_y_vertical _ _
        (LineSegment.new_m_vertical s e hx) hg.1 hg.2] at h
      injection h with h'
      subst h'
      exact div_unit_interval (by linarith [hg.1]) (by linarith [hg.1, hg.2])
    by_cases hy : s.y = e.y
    · rw [LineSegment.sample_y_horizontal _ _
        (LineSegment.new_m_horizontal s e hx hy)] at h
      exact absurd h (by simp)
    · rw [LineSegment.sample_y_defined _ c _ _
        (LineSegment.new_m_defined s e hx hy) hg.1 hg.2] at h
      injection h with h'
      subst h'
      rw [LineSegment.new_start, LineSegment.new_length]
      exact defined_y_t_unit s e _ _ c
        (LineSegment.new_m_defined s e hx hy) hg.1 hg.2
  · intro h
    by_cases hg : (LineSegment.new s e).bounds.left ≤ c ∧
        c ≤ (LineSegment.new s e).bounds.right
    swap
    · rw [LineSegment.sample_x_of_not_mem _ _ hg] at h
      exact absurd h (by simp)
    by_cases hx : s.x = e.x
    · rw [LineSegment.sample_x_vertical _ _
        (LineSegment.new_m_vertical s e hx)] at h
      exact absurd h (by simp)
    by_cases hy : s.y = e.y
    · rw [LineSegment.sample_x_horizontal _ _
        (LineSegment.new_m_horizontal s e hx hy) hg.1 hg.2] at h
      injection h with h'
      subst h'
      exact div_unit_interval (by linarith [hg.1]) (by linarith [hg.1, hg.2])
    · rw [LineSegment.sample_x_defined _ c _ _
        (LineSegment.new_m_defined s e hx hy) hg.1 hg.2] at h
      injection h with h'
      subst h'
      rw [LineSegment.new_start, LineSegment.new_length]
      exact defined_x_t_unit s e _ _ c
        (LineSegment.new_m_defined s e hx hy) hg.1 hg.2

/-- Normalizing a positive multiple of a unit vector recovers the vector. -/
theorem V2.normalize_mul_norm (v : V2) (c : ℝ) (hv : v.norm = 1)
    (hc : 0 ≤ c) (hc0 : c ≠ 0) : (v * c).normalize = v := by
  unfold V2.normalize
  rw [V2.norm_mul, hv, one_mul, abs_of_nonneg hc]
  ext
  · rw [V2.div_x, V2.mul_x]
    exact mul_div_cancel_right₀ _ hc0
  · rw [V2.div_y, V2.mul_y]
    exact mul_div_cancel_right₀ _ hc0

/-- C8: translating a segment built from distinct endpoints shifts only its
start point, by `d * a`, and preserves its `dir` and `length` fields. -/
theorem claim8_translate (s e d : V2) (a : ℝ) (hne : s ≠ e) :
    ((LineSegment.new s e).translate d a).start =
      (LineSegment.new s e).start + d * a ∧
    ((LineSegment.new s e).translate d a).dir = (LineSegment.new s e).dir ∧
    ((LineSegment.new s e).translate d a).length =
      (LineSegment.new s e).length := by
  have hes : e - s ≠ ⟨0, 0⟩ := by
    intro h0
    apply hne
    have hx : e.x - s.x = 0 := congrArg V2.x h0
    have hy : e.y - s.y = 0 := congrArg V2.y h0
    ext
    · linarith
    · linarith
  have hnorm : (e - s).norm ≠ 0 := fun h0 =>
    hes ((e - s).norm_eq_zero_iff.mp h0)
  have hlen : (s - e).norm ≠ 0 := by
    rw [V2.norm_sub_comm]
    exact hnorm
  have key : ∀ p : V2,
      (LineSegment.new p (p + (e - s).normalize * (s - e).norm)).dir =
        (e - s).normalize ∧
      (LineSegment.new p (p + (e - s).normalize * (s - e).norm)).length =
        (s - e).norm := by
    intro p
    have hw : p + (e - s).normalize * (s - e).norm - p =
        (e - s).normalize * (s - e).norm := by
      ext <;> simp
    constructor
    · rw [LineSegment.new_dir, hw]
      exact V2.normalize_mul_norm _ _ (V2.norm_normalize _ hnorm)
        (V2.norm_nonneg _) hlen
    · rw [LineSegment.new_length, V2.norm_sub_comm, hw, V2.norm_mul,
        V2.norm_normalize _ hnorm, one_mul, abs_of_nonneg (V2.norm_nonneg _)]
  have harg : (LineSegment.new s e).translate d a =
      LineSegment.new ((LineSegment.new s e).start + d * a)
        ((LineSegment.new s e).start + d * a +
          (e - s).normalize * (s - e).norm) := rfl
  rw [harg, LineSegment.new_dir s e, LineSegment.new_length s e]
  exact ⟨LineSegment.new_start _ _, key _⟩

/-- Witness for C8 at the segment from (0,0) to (3,4) shifted by 2 along
the unit x direction. -/
theorem claim8_witness :
    ((LineSegment.new (V2.mk 0 0) (V2.mk 3 4)).translate (V2.mk 1 0) 2).start =
      (LineSegment.new (V2.mk 0 0) (V2.mk 3 4)).start + V2.mk 1 0 * (2 : ℝ) ∧
    ((LineSegment.new (V2.mk 0 0) (V2.mk 3 4)).translate (V2.mk 1 0) 2).dir =
      (LineSegment.new (V2.mk 0 0) (V2.mk 3 4)).dir ∧
    ((LineSegment.new (V2.mk 0 0) (V2.mk 3 4)).translate (V2.mk 1 0) 2).length =
      (LineSegment.new (V2.mk 0 0) (V2.mk 3 4)).length :=
  claim8_translate (V2.mk 0 0) (V2.mk 3 4) (V2.mk 1 0) 2
    (by norm_num [V2.mk.injEq])

/-- The dot product of a normalized vector with another vector is the raw
dot product divided by the norm. -/
theorem normalize_dot (v d : V2) :
    v.normalize.x * d.x + v.normalize.y * d.y =
      (v.x * d.x + v.y * d.y) / v.norm := by
  unfold V2.normalize
  rw [V2.div_x, V2.div_y, div_mul_eq_mul_div, div_mul_eq_mul_div,
    div_add_div_same]

/-- C9: the stored outward normal is not a ±90° rotation of the direction
vector: there is a segment with distinct endpoints whose normal has nonzero
dot product with its `dir`. -/
theorem claim9_normal_not_perpendicular :
    ∃ s e : V2, s ≠ e ∧
      (LineSegment.new s e).normal.x * (LineSegment.new s e).dir.x +
        (LineSegment.new s e).normal.y * (LineSegment.new s e).dir.y ≠ 0 := by
  refine ⟨V2.mk 0 0, V2.mk 3 4, by norm_num [V2.mk.injEq], ?_⟩
  have hsq : Real.sqrt 5 ^ 2 = 5 := Real.sq_sqrt (by norm_num)
  have h50 : 0 ≤ Real.sqrt 5 := Real.sqrt_nonneg 5
  have h51 : 1 ≤ Real.sqrt 5 := (Real.le_sqrt (by norm_num) (by norm_num)).mpr
    (by norm_num)
  have h57 : Real.sqrt 5 < 7 / 3 := (Real.sqrt_lt' (by norm_num)).mpr
    (by norm_num)
  have hnorm : (V2.mk 3 4 - V2.mk 0 0 : V2).norm = 5 := by
    show Real.sqrt ((V2.mk 3 4 - V2.mk 0 0 : V2).x ^ 2 +
      (V2.mk 3 4 - V2.mk 0 0 : V2).y ^ 2) = 5
    rw [show ((V2.mk 3 4 - V2.mk 0 0 : V2).x ^ 2 +
        (V2.mk 3 4 - V2.mk 0 0 : V2).y ^ 2 : ℝ) = 5 ^ 2 by norm_num]
    exact Real.sqrt_sq (by norm_num)
  have hnz : (V2.mk 3 4 - V2.mk 0 0 : V2).normalize =
      V2.mk ((3 : ℝ) / 5) (4 / 5) := by
    unfold V2.normalize
    rw [hnorm]
    ext
    · show (V2.mk 3 4 - V2.mk 0 0 : V2).x / 5 = 3 / 5
      norm_num
    · show (V2.mk 3 4 - V2.mk 0 0 : V2).y / 5 = 4 / 5
      norm_num
  have hdir : (LineSegment.new (V2.mk 0 0) (V2.mk 3 4)).dir =
      V2.mk ((3 : ℝ) / 5) (4 / 5) := by
    rw [LineSegment.new_dir, hnz]
  have hx1 : (V2.mk ((3 : ℝ) / 5) (4 / 5) * Real.pi / (2 : ℝ)).x =
      Real.pi / 2 - Real.pi / 5 := by
    rw [V2.div_x, V2.mul_x]
    show (3 : ℝ) / 5 * Real.pi / 2 = _
    ring
  have hy1 : (V2.mk ((3 : ℝ) / 5) (4 / 5) * Real.pi / (2 : ℝ)).y =
      2 * (Real.pi / 5) := by
    rw [V2.div_y, V2.mul_y]
    show (4 : ℝ) / 5 * Real.pi / 2 = _
    ring
  have hpre : V2.mk
      (Real.cos ((V2.mk 3 4 - V2.mk 0 0 : V2).normalize * Real.pi / (2 : ℝ)).x -
        Real.sin ((V2.mk 3 4 - V2.mk 0 0 : V2).normalize * Real.pi / (2 : ℝ)).y)
      (Real.sin ((V2.mk 3 4 - V2.mk 0 0 : V2).normalize * Real.pi / (2 : ℝ)).x -
        Real.cos ((V2.mk 3 4 - V2.mk 0 0 : V2).normalize * Real.pi / (2 : ℝ)).y)
      = V2.mk (Real.sin (Real.pi / 5) * (1 - Real.sqrt 5) / 2) (1 / 2) := by
    rw [hnz, hx1, hy1, Real.cos_pi_div_two_sub, Real.sin_pi_div_two_sub,
      Real.sin_two_mul, Real.cos_two_mul, Real.cos_pi_div_five]
    congr 1
    · ring
    · linear_combination (-(1 : ℝ) / 8) * hsq
  have hnormal : (LineSegment.new (V2.mk 0 0) (V2.mk 3 4)).normal =
      (V2.mk (Real.sin (Real.pi / 5) * (1 - Real.sqrt 5) / 2)
        ((1 : ℝ) / 2)).normalize := by
    rw [LineSegment.new_normal, hpre]
  have hNpos : 0 < (V2.mk (Real.sin (Real.pi / 5) * (1 - Real.sqrt 5) / 2)
      ((1 : ℝ) / 2) : V2).norm := by
    apply V2.norm_pos
    intro h0
    have hc := congrArg V2.y h0
    norm_num at hc
  have hs1 : Real.sin (Real.pi / 5) ≤ 1 := Real.sin_le_one _
  rw [hnormal, hdir, normalize_dot]
  apply div_ne_zero _ (ne_of_gt hNpos)
  apply ne_of_gt
  show (0 : ℝ) < Real.sin (Real.pi / 5) * (1 - Real.sqrt 5) / 2 * (3 / 5) +
    1 / 2 * (4 / 5)
  nlinarith [mul_nonneg (sub_nonneg.mpr hs1) (sub_nonneg.mpr h51), h57]

end Amicola

end
